import Mathlib

/-!
Verification of the sparse-matrix assembly and external-solver adapter layer
of code_saturne, embedded from `src/alge/cs_matrix_hypre.c` and
`src/alge/cs_sles_amgx.c`.

Machine integers are modelled as `Nat`/`Int` (global row/column ids are
unsigned `cs_gnum_t` values, sizes are `HYPRE_Int`, i.e. C `int`), and
`cs_real_t`/`HYPRE_Real` values are modelled with exact rationals `ℚ`,
so that the accumulation protocol (sums of contributed coefficients) can be
stated exactly.
-/

namespace CodeSaturne

/-! ### HYPRE assembler-values protocol (cs_matrix_hypre.c)

The HYPRE IJ matrix is an external opaque object; the only operations the
adapter performs on it during assembly are `HYPRE_IJMatrixAddToValues`
(which accumulates values at (row, col) positions) and
`HYPRE_IJMatrixAssemble` (which seals the structure).  We model its
accumulation state as the list of all (row, col, value) triples submitted
through `HYPRE_IJMatrixAddToValues`, and the assembled coefficient at a
position as the sum of the values submitted there. -/

/-- `COEFF_GROUP_SIZE`: fixed coefficient buffer size for accumulation
(cs_matrix_hypre.c line 100). -/
def COEFF_GROUP_SIZE : Nat := 512

/-- One scalar (row, col, value) coefficient contribution, with global
row/column ids (`cs_gnum_t` modelled as `Nat`). -/
structure HEntry where
  row : Nat
  col : Nat
  val : ℚ
  deriving Repr, DecidableEq

/-- Accumulation state of a HYPRE IJ matrix: the list of all scalar
(row, col, value) triples submitted through `HYPRE_IJMatrixAddToValues`. -/
abbrev HypreIJMatrix : Type := List HEntry

/-- `HYPRE_IJMatrixAddToValues`: submit a batch of values; HYPRE adds
(accumulates) each value at its (row, col) position. -/
def hypreAddToValues (hm : HypreIJMatrix) (es : List HEntry) : HypreIJMatrix :=
  hm ++ es

/-- Coefficient at (r, c) of the assembled HYPRE matrix: the sum of all
values added at that position. -/
def coeffAt (hm : HypreIJMatrix) (r c : Nat) : ℚ :=
  ((hm.filter
      (fun e => decide (e.row = r) && decide (e.col = c))).map HEntry.val).sum

/-- Split a list into consecutive chunks of size `k` (the last chunk possibly
shorter), mirroring the `for (s_id = 0; s_id < n; s_id += k)` chunking loops
of `_assembler_values_add_g` and `_assembler_values_add_block_cc`.
(The degenerate `k = 0` case never arises in the C code, where the chunk
size is `COEFF_GROUP_SIZE` or `COEFF_GROUP_SIZE / stride` with
`stride ≤ COEFF_GROUP_SIZE`.) -/
def chunksOf (k : Nat) (l : List α) : List (List α) :=
  match l with
  | [] => []
  | x :: xs =>
    match k with
    | 0 => [x :: xs]
    | k' + 1 => (x :: xs).take (k' + 1) :: chunksOf (k' + 1) (xs.drop k')
termination_by l.length
decreasing_by
  simp only [List.length_drop, List.length_cons]
  omega

/-- Concatenating the chunks gives back the original list. -/
theorem chunksOf_flatten (k : Nat) (l : List α) : (chunksOf k l).flatten = l := by
  match l with
  | [] => simp [chunksOf]
  | x :: xs =>
    match k with
    | 0 => simp [chunksOf]
    | k' + 1 =>
      have ih := chunksOf_flatten (k' + 1) (xs.drop k')
      simp only [chunksOf, List.flatten_cons, ih, List.take_succ_cons,
        List.cons_append, List.cons.injEq, true_and]
      exact List.take_append_drop k' xs
termination_by l.length
decreasing_by
  simp only [List.length_drop, List.length_cons]
  omega

/-- Row-ownership test of `_assembler_values_add_g`: the entry is kept
when `l_b <= r_g_id && r_g_id < u_b`. -/
def rowOwned (lb ub : Nat) (e : HEntry) : Bool :=
  decide (lb ≤ e.row) && decide (e.row < ub)

/-- Scalar (`b_size == 1`) path of `_assembler_values_add_g`: the entries
are walked in chunks of `COEFF_GROUP_SIZE`; within each chunk the entries
whose global row id lies in the owned range [l_b, u_b) are gathered into the
rows/cols/values buffers (per-chunk counter `l`) and submitted through one
`HYPRE_IJMatrixAddToValues` call; the rest are skipped. -/
def assemblerValuesAddScalar (lb ub : Nat) (hm : HypreIJMatrix)
    (es : List HEntry) : HypreIJMatrix :=
  (chunksOf COEFF_GROUP_SIZE es).foldl
    (fun m chunk => hypreAddToValues m (chunk.filter (rowOwned lb ub))) hm

/-- One block (row, col) contribution as passed to
`_assembler_values_add_block_cc`: global block row/column ids plus the
`stride` values of the block (`vals[(s_id + i)*stride + ...]`). -/
structure BEntry where
  row : Nat
  col : Nat
  vals : List ℚ
  deriving Repr, DecidableEq

/-- Row-ownership test of `_assembler_values_add_block_cc`. -/
def bentryOwned (lb ub : Nat) (e : BEntry) : Bool :=
  decide (lb ≤ e.row) && decide (e.row < ub)

/-- Expansion of one owned block entry into the scalar entries written into
the rows/cols/values buffers by `_assembler_values_add_block_cc`: for
j and k ranging over the block extents, position
(row_g_id*b_size + j, col_g_id*b_size + k) receives `vals[j*b_size + k]`
of the entry's value block. -/
def expandBlock (bSize : Nat) (e : BEntry) : List HEntry :=
  (List.range bSize).flatMap (fun j =>
    (List.range bSize).map (fun k =>
      ⟨e.row * bSize + j, e.col * bSize + k, e.vals.getD (j * bSize + k) 0⟩))

/-- `_assembler_values_add_block_cc`: the block entries are walked in chunks
of `block_step = COEFF_GROUP_SIZE / stride`; within each chunk the entries
whose global row id lies in [l_b, u_b) are expanded into scalar entries and
submitted through one `HYPRE_IJMatrixAddToValues` call. -/
def assemblerValuesAddBlockCC (lb ub bSize stride : Nat) (hm : HypreIJMatrix)
    (es : List BEntry) : HypreIJMatrix :=
  (chunksOf (COEFF_GROUP_SIZE / stride) es).foldl
    (fun m chunk =>
      hypreAddToValues m
        (((chunk.filter (bentryOwned lb ub)).map (expandBlock bSize)).flatten))
    hm

/-- Coefficients handle for a HYPRE matrix (`cs_matrix_coeffs_hypre_t`):
owned row range, IJ matrix accumulation state, the hx/hy work vectors
created on first finalize, and the `matrix_state` flag. -/
structure HypreCoeffs where
  l_range : Nat × Nat
  hm : HypreIJMatrix
  hxCreated : Bool
  hyCreated : Bool
  matrix_state : Nat
  deriving Repr, DecidableEq

/-- Coefficients handle as created by `_assembler_values_init` at
`matrix_state == 0`: the owned row range is recorded from the assembler's
`l_range` and the IJ matrix starts with no accumulated values. -/
def assemblerValuesInitCoeffs (lr : Nat × Nat) : HypreCoeffs :=
  ⟨lr, [], false, false, 0⟩

/-- `_assembler_values_end`: `HYPRE_IJMatrixAssemble` seals the accumulated
values (the coefficients are not changed); on the first finalize
(`matrix_state == 0`) the hx/hy vectors are created; finally the state flag
is set to 1. -/
def assemblerValuesEnd (c : HypreCoeffs) : HypreCoeffs :=
  { c with
    hxCreated := if c.matrix_state = 0 then true else c.hxCreated,
    hyCreated := if c.matrix_state = 0 then true else c.hyCreated,
    matrix_state := 1 }

/-- A whole assembly session for a scalar matrix: init, a sequence of
`_assembler_values_add_g` calls, then `_assembler_values_end`. -/
def runAssembly (lb ub : Nat) (calls : List (List HEntry)) : HypreCoeffs :=
  let c0 := assemblerValuesInitCoeffs (lb, ub)
  assemblerValuesEnd
    { c0 with hm := calls.foldl (assemblerValuesAddScalar lb ub) c0.hm }

/-- Total value contributed at (r, c) by a sequence of add calls:
the sum over the calls of the sum of the matching entries' values. -/
def contribSum (calls : List (List HEntry)) (r c : Nat) : ℚ :=
  (calls.map (fun es => coeffAt es r c)).sum

/-! #### Normalization lemmas for the chunked add paths -/

theorem foldl_hypreAdd (f : α → List HEntry) (cs : List α)
    (hm : HypreIJMatrix) :
    cs.foldl (fun m c0 => hypreAddToValues m (f c0)) hm
      = hypreAddToValues hm (cs.map f).flatten := by
  induction cs generalizing hm with
  | nil => simp [hypreAddToValues]
  | cons c0 cs ih =>
    simp only [List.foldl_cons, ih, List.map_cons, List.flatten_cons]
    simp [hypreAddToValues, List.append_assoc]

theorem flatten_map_filter (p : α → Bool) (cs : List (List α)) :
    (cs.map (List.filter p)).flatten = cs.flatten.filter p := by
  induction cs with
  | nil => rfl
  | cons c0 cs ih =>
    simp only [List.map_cons, List.flatten_cons, List.filter_append, ih]

/-- The chunked scalar add path is extensionally the append of the
owned-row entries: chunking with the fixed batch size does not affect the
submitted content. -/
theorem assemblerValuesAddScalar_eq (lb ub : Nat) (hm : HypreIJMatrix)
    (es : List HEntry) :
    assemblerValuesAddScalar lb ub hm es
      = hypreAddToValues hm (es.filter (rowOwned lb ub)) := by
  unfold assemblerValuesAddScalar
  rw [foldl_hypreAdd, flatten_map_filter, chunksOf_flatten]

theorem flatten_map_filter_expand (p : BEntry → Bool) (f : BEntry → List HEntry)
    (cs : List (List BEntry)) :
    (cs.map (fun ch => ((ch.filter p).map f).flatten)).flatten
      = ((cs.flatten.filter p).map f).flatten := by
  induction cs with
  | nil => rfl
  | cons c0 cs ih => simp [List.filter_append, ih]

/-- The chunked block add path is extensionally the append of the expanded
owned-row block entries. -/
theorem assemblerValuesAddBlockCC_eq (lb ub bSize stride : Nat)
    (hm : HypreIJMatrix) (es : List BEntry) :
    assemblerValuesAddBlockCC lb ub bSize stride hm es
      = hypreAddToValues hm
          (((es.filter (bentryOwned lb ub)).map (expandBlock bSize)).flatten) := by
  unfold assemblerValuesAddBlockCC
  rw [foldl_hypreAdd, flatten_map_filter_expand, chunksOf_flatten]

theorem coeffAt_append (a b : List HEntry) (r c : Nat) :
    coeffAt (a ++ b) r c = coeffAt a r c + coeffAt b r c := by
  simp [coeffAt, List.filter_append, List.sum_append]

/-- On an owned row, the ownership filter does not change the coefficient
contributed at (r, c). -/
theorem coeffAt_filter_owned (lb ub r c : Nat) (hlb : lb ≤ r) (hub : r < ub)
    (es : List HEntry) :
    coeffAt (es.filter (rowOwned lb ub)) r c = coeffAt es r c := by
  unfold coeffAt
  rw [List.filter_filter]
  have hfc : es.filter
        (fun e => (decide (e.row = r) && decide (e.col = c)) && rowOwned lb ub e)
      = es.filter (fun e => decide (e.row = r) && decide (e.col = c)) := by
    apply List.filter_congr
    intro e _
    by_cases he : e.row = r
    · by_cases hc : e.col = c
      · simp [he, hc, rowOwned, hlb, hub]
      · simp [hc]
    · simp [he]
  rw [hfc]

theorem foldl_addScalar_eq (lb ub : Nat) (hm : HypreIJMatrix)
    (calls : List (List HEntry)) :
    calls.foldl (assemblerValuesAddScalar lb ub) hm
      = hypreAddToValues hm
          ((calls.map (fun es => es.filter (rowOwned lb ub))).flatten) := by
  induction calls generalizing hm with
  | nil => simp [hypreAddToValues]
  | cons es calls ih =>
    simp only [List.foldl_cons, ih, assemblerValuesAddScalar_eq,
      List.map_cons, List.flatten_cons]
    simp [hypreAddToValues, List.append_assoc]

theorem coeffAt_flatten (ls : List (List HEntry)) (r c : Nat) :
    coeffAt ls.flatten r c = (ls.map (fun l => coeffAt l r c)).sum := by
  induction ls with
  | nil => rfl
  | cons l ls ih =>
    rw [List.flatten_cons, coeffAt_append, ih, List.map_cons, List.sum_cons]

/-- The finalized coefficient at an owned (r, c) position after a whole
assembly session equals the total contributed value there. -/
theorem runAssembly_coeff (lb ub r c : Nat) (hlb : lb ≤ r) (hub : r < ub)
    (calls : List (List HEntry)) :
    coeffAt (runAssembly lb ub calls).hm r c = contribSum calls r c := by
  unfold runAssembly assemblerValuesInitCoeffs contribSum assemblerValuesEnd
  simp only
  rw [foldl_addScalar_eq]
  simp only [hypreAddToValues, List.nil_append]
  rw [coeffAt_flatten, List.map_map]
  congr 1
  apply List.map_congr_left
  intro es _
  exact coeffAt_filter_owned lb ub r c hlb hub es

/-- C1: for any sequence of assembler-values add calls on a scalar matrix,
the finalized coefficient at an owned (row, column) position equals the sum
of all contributed values at that position, and the result is unchanged
under any permutation of the calls; the chunked batching with
COEFF_GROUP_SIZE inside each call is transparent (established through
`assemblerValuesAddScalar_eq`). -/
theorem accumulation_add_calls
    (lb ub r c : Nat) (hlb : lb ≤ r) (hub : r < ub)
    (calls calls' : List (List HEntry)) (hperm : calls.Perm calls') :
    coeffAt (runAssembly lb ub calls).hm r c = contribSum calls r c
  ∧ coeffAt (runAssembly lb ub calls').hm r c
      = coeffAt (runAssembly lb ub calls).hm r c := by
  refine ⟨runAssembly_coeff lb ub r c hlb hub calls, ?_⟩
  rw [runAssembly_coeff lb ub r c hlb hub calls,
    runAssembly_coeff lb ub r c hlb hub calls']
  exact (hperm.map (fun es => coeffAt es r c)).sum_eq.symm

/-- Witness for C1 at a concrete instance: two add calls contributing
1 and 2 at (1, 1) on the owned range [0, 2), in two different orders. -/
theorem accumulation_add_calls_witness :
    (0 : Nat) ≤ 1 ∧ 1 < 2
  ∧ ([[(⟨1, 1, 1⟩ : HEntry), ⟨0, 1, 5⟩], [⟨1, 1, 2⟩]].Perm
        [[(⟨1, 1, 2⟩ : HEntry)], [⟨1, 1, 1⟩, ⟨0, 1, 5⟩]])
  ∧ (coeffAt (runAssembly 0 2 [[⟨1, 1, 1⟩, ⟨0, 1, 5⟩], [⟨1, 1, 2⟩]]).hm 1 1
        = contribSum [[⟨1, 1, 1⟩, ⟨0, 1, 5⟩], [⟨1, 1, 2⟩]] 1 1
      ∧ coeffAt (runAssembly 0 2 [[⟨1, 1, 2⟩], [⟨1, 1, 1⟩, ⟨0, 1, 5⟩]]).hm 1 1
        = coeffAt (runAssembly 0 2 [[⟨1, 1, 1⟩, ⟨0, 1, 5⟩], [⟨1, 1, 2⟩]]).hm 1 1) :=
  ⟨by decide, by decide, by decide,
   accumulation_add_calls 0 2 1 1 (by decide) (by decide) _ _ (by decide)⟩

theorem rowOwned_false (lb ub : Nat) (e : HEntry)
    (he : ¬ (lb ≤ e.row ∧ e.row < ub)) : rowOwned lb ub e = false := by
  by_cases h1 : lb ≤ e.row
  · have h2 : ¬ e.row < ub := fun h => he ⟨h1, h⟩
    simp [rowOwned, h2]
  · simp [rowOwned, h1]

theorem bentryOwned_false (lb ub : Nat) (e : BEntry)
    (he : ¬ (lb ≤ e.row ∧ e.row < ub)) : bentryOwned lb ub e = false := by
  by_cases h1 : lb ≤ e.row
  · have h2 : ¬ e.row < ub := fun h => he ⟨h1, h⟩
    simp [bentryOwned, h2]
  · simp [bentryOwned, h1]

/-- C2: an entry whose global row id lies outside the owned range
[l_range[0], l_range[1]) recorded in the coefficients handle is dropped by
the add paths (scalar `_assembler_values_add_g` and
`_assembler_values_add_block_cc`) and has no effect on the finalized
matrix; and splitting one logical add call into two adjacent chunks gives
the same accumulation state as the single call. -/
theorem ownership_filtering
    (lb ub : Nat) (hm : HypreIJMatrix) (es1 es2 : List HEntry) (e : HEntry)
    (he : ¬ (lb ≤ e.row ∧ e.row < ub))
    (bes1 bes2 : List BEntry) (be : BEntry) (bSize stride : Nat)
    (hbe : ¬ (lb ≤ be.row ∧ be.row < ub))
    (hstride : 0 < stride ∧ stride ≤ COEFF_GROUP_SIZE) :
    assemblerValuesAddScalar lb ub hm (es1 ++ e :: es2)
      = assemblerValuesAddScalar lb ub hm (es1 ++ es2)
  ∧ assemblerValuesAddScalar lb ub (assemblerValuesAddScalar lb ub hm es1) es2
      = assemblerValuesAddScalar lb ub hm (es1 ++ es2)
  ∧ runAssembly lb ub [es1 ++ e :: es2] = runAssembly lb ub [es1 ++ es2]
  ∧ assemblerValuesAddBlockCC lb ub bSize stride hm (bes1 ++ be :: bes2)
      = assemblerValuesAddBlockCC lb ub bSize stride hm (bes1 ++ bes2)
  ∧ assemblerValuesAddBlockCC lb ub bSize stride
        (assemblerValuesAddBlockCC lb ub bSize stride hm bes1) bes2
      = assemblerValuesAddBlockCC lb ub bSize stride hm (bes1 ++ bes2) := by
  have hdrop : ∀ m : HypreIJMatrix,
      assemblerValuesAddScalar lb ub m (es1 ++ e :: es2)
        = assemblerValuesAddScalar lb ub m (es1 ++ es2) := by
    intro m
    rw [assemblerValuesAddScalar_eq, assemblerValuesAddScalar_eq]
    simp [List.filter_append, List.filter_cons, rowOwned_false lb ub e he]
  refine ⟨hdrop hm, ?_, ?_, ?_, ?_⟩
  · rw [assemblerValuesAddScalar_eq, assemblerValuesAddScalar_eq,
      assemblerValuesAddScalar_eq]
    simp [hypreAddToValues, List.filter_append, List.append_assoc]
  · unfold runAssembly
    simp only [List.foldl_cons, List.foldl_nil]
    rw [hdrop]
  · rw [assemblerValuesAddBlockCC_eq, assemblerValuesAddBlockCC_eq]
    simp [List.filter_append, List.filter_cons, bentryOwned_false lb ub be hbe]
  · rw [assemblerValuesAddBlockCC_eq, assemblerValuesAddBlockCC_eq,
      assemblerValuesAddBlockCC_eq]
    simp [hypreAddToValues, List.filter_append, List.append_assoc]

/-- Witness for C2 at a concrete instance: owned range [2, 4), a scalar
entry at row 5 and a block entry at row 0, both outside the range. -/
theorem ownership_filtering_witness :
    ¬ ((2 : Nat) ≤ (⟨5, 0, 7⟩ : HEntry).row ∧ (⟨5, 0, 7⟩ : HEntry).row < 4)
  ∧ ¬ ((2 : Nat) ≤ (⟨0, 1, [1, 2, 3, 4]⟩ : BEntry).row
        ∧ (⟨0, 1, [1, 2, 3, 4]⟩ : BEntry).row < 4)
  ∧ (0 < 4 ∧ 4 ≤ COEFF_GROUP_SIZE)
  ∧ (assemblerValuesAddScalar 2 4 [] ([⟨2, 0, 1⟩] ++ (⟨5, 0, 7⟩ : HEntry) :: [⟨3, 3, 2⟩])
       = assemblerValuesAddScalar 2 4 [] ([⟨2, 0, 1⟩] ++ [⟨3, 3, 2⟩])
     ∧ assemblerValuesAddScalar 2 4
           (assemblerValuesAddScalar 2 4 [] [⟨2, 0, 1⟩]) [⟨3, 3, 2⟩]
       = assemblerValuesAddScalar 2 4 [] ([⟨2, 0, 1⟩] ++ [⟨3, 3, 2⟩])
     ∧ runAssembly 2 4 [[⟨2, 0, 1⟩] ++ (⟨5, 0, 7⟩ : HEntry) :: [⟨3, 3, 2⟩]]
       = runAssembly 2 4 [[⟨2, 0, 1⟩] ++ [⟨3, 3, 2⟩]]
     ∧ assemblerValuesAddBlockCC 2 4 2 4 []
           ([⟨2, 3, [1, 2, 3, 4]⟩] ++ (⟨0, 1, [1, 2, 3, 4]⟩ : BEntry) :: [])
       = assemblerValuesAddBlockCC 2 4 2 4 [] ([⟨2, 3, [1, 2, 3, 4]⟩] ++ [])
     ∧ assemblerValuesAddBlockCC 2 4 2 4
           (assemblerValuesAddBlockCC 2 4 2 4 [] [⟨2, 3, [1, 2, 3, 4]⟩]) []
       = assemblerValuesAddBlockCC 2 4 2 4 [] ([⟨2, 3, [1, 2, 3, 4]⟩] ++ [])) :=
  ⟨by decide, by decide, by decide,
   ownership_filtering 2 4 [] [⟨2, 0, 1⟩] [⟨3, 3, 2⟩] ⟨5, 0, 7⟩ (by decide)
     [⟨2, 3, [1, 2, 3, 4]⟩] [] ⟨0, 1, [1, 2, 3, 4]⟩ 2 4 (by decide) (by decide)⟩

/-! ### Preallocation sizing from an assembler (cs_matrix_hypre.c)

`_compute_diag_sizes_assembler`, `_compute_diag_sizes_assembler_db` and
`_compute_diag_sizes_assembler_b` walk the assembler's CSR row index and
column-id list; we represent that traversal by the per-row column-id lists.
Sizes are `HYPRE_Int` (C `int`), modelled as `Int`. -/

/-- The matrix assembler data used by the sizing functions
(`cs_matrix_assembler_t`): the separate-diagonal flag and, for each row,
the column ids `col_ids[row_index[i] .. row_index[i+1])`. -/
structure MatrixAssembler where
  separate_diag : Bool
  rows : List (List Nat)
  deriving Repr, DecidableEq

/-- `cs_matrix_assembler_get_n_rows`. -/
def maNRows (ma : MatrixAssembler) : Nat := ma.rows.length

/-- Inner loop of `_compute_diag_sizes_assembler`: count the columns with
id `< n_rows`, stopping at the first distant column (the `break`). -/
def nRDiagScalar (nRows : Nat) (cols : List Nat) : Nat :=
  (cols.takeWhile (fun cId => decide (cId < nRows))).length

/-- `_compute_diag_sizes_assembler` (scalar variant): per row,
`diag_sizes[i] = n_r_diag + n_diag_add` and
`offdiag_sizes[i] = n_cols - n_r_diag`, with `n_diag_add = 1` when the
assembler stores the diagonal separately. -/
def computeDiagSizesAssembler (ma : MatrixAssembler) : List Int × List Int :=
  let nRows := maNRows ma
  let nDiagAdd : Int := if ma.separate_diag then 1 else 0
  ((List.range nRows).map (fun i =>
      (nRDiagScalar nRows (ma.rows.getD i []) : Int) + nDiagAdd),
   (List.range nRows).map (fun i =>
      ((ma.rows.getD i []).length : Int)
        - (nRDiagScalar nRows (ma.rows.getD i []) : Int)))

/-- Inner loop of `_compute_diag_sizes_assembler_db`: each local column
counts 1 (`n_r_diag++`), except the diagonal column `col_ids[j] == i`
which additionally counts `db_size - 1`; stop at the first distant
column. -/
def nRDiagDb (nRows dbSize i : Nat) (cols : List Nat) : Nat :=
  ((cols.takeWhile (fun cId => decide (cId < nRows))).map
    (fun cId => if cId = i then dbSize else 1)).sum

/-- `_compute_diag_sizes_assembler_db` (blocked diagonal, scalar
extra-diagonal): per row i and block row j,
`diag_sizes[i*db_size + j] = n_r_diag + n_diag_add` and
`offdiag_sizes[i*db_size + j] = n_cols - n_r_diag`, with
`n_diag_add = db_size` when the diagonal is stored separately. -/
def computeDiagSizesAssemblerDb (ma : MatrixAssembler) (dbSize : Nat) :
    List Int × List Int :=
  let nRows := maNRows ma
  let nDiagAdd : Int := if ma.separate_diag then (dbSize : Int) else 0
  (((List.range nRows).map (fun i =>
      (nRDiagDb nRows dbSize i (ma.rows.getD i []) : Int) + nDiagAdd)).flatMap
        (List.replicate dbSize),
   ((List.range nRows).map (fun i =>
      ((ma.rows.getD i []).length : Int)
        - (nRDiagDb nRows dbSize i (ma.rows.getD i []) : Int))).flatMap
        (List.replicate dbSize))

/-- `_compute_diag_sizes_assembler_b` (full blocks): per row i and block
row j, `diag_sizes[i*b_size + j] = (n_r_diag + n_diag_add)*b_size` and
`offdiag_sizes[i*b_size + j] = (n_cols - n_r_diag)*b_size`, with
`n_diag_add = 1` when the diagonal is stored separately. -/
def computeDiagSizesAssemblerB (ma : MatrixAssembler) (bSize : Nat) :
    List Int × List Int :=
  let nRows := maNRows ma
  let nDiagAdd : Int := if ma.separate_diag then 1 else 0
  (((List.range nRows).map (fun i =>
      ((nRDiagScalar nRows (ma.rows.getD i []) : Int) + nDiagAdd)
        * (bSize : Int))).flatMap (List.replicate bSize),
   ((List.range nRows).map (fun i =>
      (((ma.rows.getD i []).length : Int)
        - (nRDiagScalar nRows (ma.rows.getD i []) : Int))
        * (bSize : Int))).flatMap (List.replicate bSize))

/-- Preallocation sizing of `_assembler_values_init` (lines 549-564):
three-way dispatch on the block sizes. -/
def assemblerInitDiagSizes (ma : MatrixAssembler) (dbSize ebSize : Nat) :
    List Int × List Int :=
  if dbSize = 1 then computeDiagSizesAssembler ma
  else if ebSize = 1 then computeDiagSizesAssemblerDb ma dbSize
  else computeDiagSizesAssemblerB ma dbSize

/-- The assembler's sorted-column convention: within a row, local column
ids (`< n_rows`) precede distant ones. -/
def localFirst (nRows : Nat) (cols : List Nat) : Prop :=
  ∀ cId ∈ cols.dropWhile (fun c0 => decide (c0 < nRows)), ¬ cId < nRows

instance (nRows : Nat) (cols : List Nat) : Decidable (localFirst nRows cols) := by
  unfold localFirst
  infer_instance

/-- Under the sorted-column convention, the break-terminated local-column
scan counts exactly the columns with id `< n_rows`. -/
theorem nRDiagScalar_eq_countP (nRows : Nat) (cols : List Nat)
    (h : localFirst nRows cols) :
    nRDiagScalar nRows cols = cols.countP (fun cId => decide (cId < nRows)) := by
  unfold nRDiagScalar
  conv_rhs => rw [← List.takeWhile_append_dropWhile
    (p := fun cId => decide (cId < nRows)) (l := cols)]
  rw [List.countP_append]
  have h1 : (cols.takeWhile (fun cId => decide (cId < nRows))).countP
      (fun cId => decide (cId < nRows))
      = (cols.takeWhile (fun cId => decide (cId < nRows))).length := by
    apply List.countP_eq_length.mpr
    intro a ha
    exact List.mem_takeWhile_imp (p := fun cId => decide (cId < nRows)) ha
  have h2 : (cols.dropWhile (fun cId => decide (cId < nRows))).countP
      (fun cId => decide (cId < nRows)) = 0 := by
    apply List.countP_eq_zero.mpr
    intro a ha
    simpa using h a ha
  omega

/-- Under the sorted-column convention, the remaining columns of the row
are exactly those with id `>= n_rows`. -/
theorem length_sub_nRDiagScalar (nRows : Nat) (cols : List Nat)
    (h : localFirst nRows cols) :
    cols.length - nRDiagScalar nRows cols
      = cols.countP (fun cId => !decide (cId < nRows)) := by
  have hc := List.length_eq_countP_add_countP
    (fun cId => decide (cId < nRows)) cols
  have he := nRDiagScalar_eq_countP nRows cols h
  have hb : cols.countP (fun a => decide ¬(decide (a < nRows)) = true)
      = cols.countP (fun cId => !decide (cId < nRows)) := by
    apply List.countP_congr
    intro a _
    by_cases hx : a < nRows <;> simp [hx]
  omega

theorem getD_map_range (f : Nat → Int) (n i : Nat) (d : Int) (hi : i < n) :
    ((List.range n).map f).getD i d = f i := by
  rw [List.getD_eq_getElem?_getD, List.getElem?_map, List.getElem?_range hi]
  rfl

/-- Reading position `i*k + j` (with `j < k`) of the flat array that holds
`k` consecutive copies of each per-row value gives row i's value. -/
theorem getD_flatMap_replicate (vs : List Int) (k i j : Nat) (d : Int)
    (hj : j < k) (hi : i < vs.length) :
    (vs.flatMap (List.replicate k)).getD (i * k + j) d = vs.getD i d := by
  induction vs generalizing i with
  | nil => simp at hi
  | cons v vs ih =>
    match i with
    | 0 =>
      simp only [List.flatMap_cons, Nat.zero_mul, Nat.zero_add]
      rw [List.getD_eq_getElem?_getD,
        List.getElem?_append_left (by simpa [List.length_replicate] using hj),
        List.getElem?_replicate]
      simp [hj, List.getD]
    | i' + 1 =>
      have harith : (i' + 1) * k + j = k + (i' * k + j) := by ring
      have hlen : (List.replicate k v).length ≤ k + (i' * k + j) := by
        simp [List.length_replicate]
      simp only [List.flatMap_cons]
      rw [harith, List.getD_eq_getElem?_getD, List.getElem?_append_right hlen,
        List.length_replicate, Nat.add_sub_cancel_left,
        ← List.getD_eq_getElem?_getD]
      rw [List.getD_cons_succ]
      exact ih i' (by simpa using hi)

/-- C3: the preallocation sizes at assembler-values initialization are
computed by the three-way dispatch (scalar when db_size == 1, mixed when
eb_size == 1, full-block otherwise), and in the scalar variant each row
counts its columns with id < n_rows as diagonal and the remaining columns
as off-diagonal (under the assembler's local-columns-first convention). -/
theorem diag_sizes_dispatch_and_scalar_counts
    (ma : MatrixAssembler) (dbSize ebSize : Nat) (i : Nat)
    (hi : i < maNRows ma)
    (hpart : localFirst (maNRows ma) (ma.rows.getD i [])) :
    (dbSize = 1 →
      assemblerInitDiagSizes ma dbSize ebSize = computeDiagSizesAssembler ma)
  ∧ (dbSize ≠ 1 → ebSize = 1 →
      assemblerInitDiagSizes ma dbSize ebSize
        = computeDiagSizesAssemblerDb ma dbSize)
  ∧ (dbSize ≠ 1 → ebSize ≠ 1 →
      assemblerInitDiagSizes ma dbSize ebSize
        = computeDiagSizesAssemblerB ma dbSize)
  ∧ (computeDiagSizesAssembler ma).1.getD i 0
      = ((ma.rows.getD i []).countP (fun cId => decide (cId < maNRows ma)) : Int)
        + (if ma.separate_diag then 1 else 0)
  ∧ (computeDiagSizesAssembler ma).2.getD i 0
      = ((ma.rows.getD i []).countP (fun cId => !decide (cId < maNRows ma)) : Int)
    := by
  refine ⟨?_, ?_, ?_, ?_, ?_⟩
  · intro h1
    simp [assemblerInitDiagSizes, h1]
  · intro h1 h2
    simp [assemblerInitDiagSizes, h1, h2]
  · intro h1 h2
    simp [assemblerInitDiagSizes, h1, h2]
  · unfold computeDiagSizesAssembler
    simp only
    rw [getD_map_range _ _ _ _ hi, nRDiagScalar_eq_countP _ _ hpart]
  · unfold computeDiagSizesAssembler
    simp only
    rw [getD_map_range _ _ _ _ hi]
    have hle : nRDiagScalar (maNRows ma) (ma.rows.getD i [])
        ≤ (ma.rows.getD i []).length := by
      unfold nRDiagScalar
      exact (List.takeWhile_sublist _).length_le
    have hsub := length_sub_nRDiagScalar (maNRows ma) (ma.rows.getD i []) hpart
    omega

/-- Witness for C3 at a concrete assembler: two rows, row 0 with columns
[1, 3] (one local, one distant), row 1 with columns [0, 1, 2], separate
diagonal off. -/
theorem diag_sizes_dispatch_witness :
    0 < maNRows (MatrixAssembler.mk false [[1, 3], [0, 1, 2]])
  ∧ localFirst (maNRows (MatrixAssembler.mk false [[1, 3], [0, 1, 2]]))
      ((MatrixAssembler.mk false [[1, 3], [0, 1, 2]]).rows.getD 0 [])
  ∧ ((computeDiagSizesAssembler (MatrixAssembler.mk false [[1, 3], [0, 1, 2]])).1.getD 0 0
        = (1 : Int) + 0
      ∧ (computeDiagSizesAssembler (MatrixAssembler.mk false [[1, 3], [0, 1, 2]])).2.getD 0 0
        = (1 : Int)) :=
  ⟨by decide, by decide,
   by
    have h := diag_sizes_dispatch_and_scalar_counts
      (MatrixAssembler.mk false [[1, 3], [0, 1, 2]]) 1 1 0 (by decide) (by decide)
    refine ⟨?_, ?_⟩
    · rw [h.2.2.2.1]
      decide
    · rw [h.2.2.2.2]
      decide⟩

theorem sum_map_ones (l : List Nat) : (l.map (fun _ => (1 : Nat))).sum = l.length := by
  induction l with
  | nil => rfl
  | cons a l ih =>
    simp [ih]
    omega

/-- When the diagonal column id is absent from the row's column list, the
blocked-diagonal scan counts every local column as 1 (no db_size bump). -/
theorem nRDiagDb_of_no_diag (nRows dbSize i : Nat) (cols : List Nat)
    (hnodiag : i ∉ cols) :
    nRDiagDb nRows dbSize i cols = nRDiagScalar nRows cols := by
  unfold nRDiagDb nRDiagScalar
  have hcong : (cols.takeWhile (fun cId => decide (cId < nRows))).map
        (fun cId => if cId = i then dbSize else 1)
      = (cols.takeWhile (fun cId => decide (cId < nRows))).map
        (fun _ => (1 : Nat)) := by
    apply List.map_congr_left
    intro a ha
    have hmem : a ∈ cols :=
      (List.takeWhile_sublist (fun cId => decide (cId < nRows))).subset ha
    have : a ≠ i := fun h => hnodiag (h ▸ hmem)
    simp [this]
  rw [hcong, sum_map_ones]

/-- C4: with separate diagonal storage, the diagonal entry of a row is
absent from the column-id list and hence excluded from the generic
diagonal/off-diagonal counts, while the explicit n_diag_add term adds 1
(scalar variant) or db_size (blocked-diagonal variant) to every row's
diagonal-block preallocation count. -/
theorem separate_diag_counting
    (ma : MatrixAssembler) (dbSize i j : Nat)
    (hsep : ma.separate_diag = true)
    (hi : i < maNRows ma)
    (hj : j < dbSize)
    (hnodiag : i ∉ ma.rows.getD i [])
    (hpart : localFirst (maNRows ma) (ma.rows.getD i [])) :
    nRDiagDb (maNRows ma) dbSize i (ma.rows.getD i [])
      = (ma.rows.getD i []).countP (fun cId => decide (cId < maNRows ma))
  ∧ (computeDiagSizesAssembler ma).1.getD i 0
      = ((ma.rows.getD i []).countP (fun cId => decide (cId < maNRows ma)) : Int)
        + 1
  ∧ (computeDiagSizesAssemblerDb ma dbSize).1.getD (i * dbSize + j) 0
      = ((ma.rows.getD i []).countP (fun cId => decide (cId < maNRows ma)) : Int)
        + dbSize := by
  have hgen : nRDiagDb (maNRows ma) dbSize i (ma.rows.getD i [])
      = (ma.rows.getD i []).countP (fun cId => decide (cId < maNRows ma)) := by
    rw [nRDiagDb_of_no_diag _ _ _ _ hnodiag, nRDiagScalar_eq_countP _ _ hpart]
  refine ⟨hgen, ?_, ?_⟩
  · unfold computeDiagSizesAssembler
    simp only
    rw [getD_map_range _ _ _ _ hi, nRDiagScalar_eq_countP _ _ hpart, hsep]
    simp
  · unfold computeDiagSizesAssemblerDb
    simp only
    rw [getD_flatMap_replicate _ _ _ _ _ hj (by simpa [maNRows] using hi),
      getD_map_range _ _ _ _ hi, hgen, hsep]
    simp

/-- Witness for C4 at a concrete assembler: two rows with separate
diagonal, row 0 with columns [1, 2] (the diagonal id 0 absent, column 1
local, column 2 distant), db_size 3, block row j = 1. -/
theorem separate_diag_counting_witness :
    (MatrixAssembler.mk true [[1, 2], [0]]).separate_diag = true
  ∧ 0 < maNRows (MatrixAssembler.mk true [[1, 2], [0]])
  ∧ 1 < 3
  ∧ 0 ∉ (MatrixAssembler.mk true [[1, 2], [0]]).rows.getD 0 []
  ∧ localFirst (maNRows (MatrixAssembler.mk true [[1, 2], [0]]))
      ((MatrixAssembler.mk true [[1, 2], [0]]).rows.getD 0 [])
  ∧ (nRDiagDb (maNRows (MatrixAssembler.mk true [[1, 2], [0]])) 3 0
        ((MatrixAssembler.mk true [[1, 2], [0]]).rows.getD 0 []) = 1
      ∧ (computeDiagSizesAssembler (MatrixAssembler.mk true [[1, 2], [0]])).1.getD 0 0
        = (1 : Int) + 1
      ∧ (computeDiagSizesAssemblerDb (MatrixAssembler.mk true [[1, 2], [0]]) 3).1.getD
          (0 * 3 + 1) 0 = (1 : Int) + 3) :=
  ⟨rfl, by decide, by decide, by decide, by decide,
   by
    have h := separate_diag_counting (MatrixAssembler.mk true [[1, 2], [0]])
      3 0 1 rfl (by decide) (by decide) (by decide) (by decide)
    refine ⟨?_, ?_, ?_⟩
    · rw [h.1]; decide
    · rw [h.2.1]; decide
    · rw [h.2.2]; decide⟩

/-! ### Matrix vtable dispatch (cs_matrix_set_type_hypre)

The fill-type enumeration `cs_matrix_fill_type_t` and the
`vector_multiply[CS_MATRIX_N_FILL_TYPES][2]` function-pointer table are
declared in cs_matrix.h; `cs_matrix_set_type_hypre` rewrites the table. -/

/-- `cs_matrix_fill_type_t`. -/
inductive CsMatrixFillType
  | scalar
  | scalar_sym
  | block_d
  | block_d_66
  | block_d_sym
  | block
  deriving Repr, DecidableEq

/-- The matrix-vector multiply functions this back-end can install. -/
inductive SpMVFn
  | mat_vec_p_parcsr
  deriving Repr, DecidableEq

/-- The per-fill-type SpMV slots of a matrix: slot index false is
`vector_multiply[ft][0]`, true is `[ft][1]`; `none` models a NULL
function pointer. -/
structure MatrixVTable where
  vector_multiply : CsMatrixFillType → Bool → Option SpMVFn

/-- First phase of `cs_matrix_set_type_hypre`: both SpMV slots of every
fill type are reset to NULL. -/
def resetVectorMultiply (_m : MatrixVTable) : MatrixVTable :=
  ⟨fun _ _ => none⟩

/-- Second phase of `cs_matrix_set_type_hypre`: `_mat_vec_p_parcsr` is
installed in slot 0 for CS_MATRIX_SCALAR and CS_MATRIX_SCALAR_SYM only. -/
def installHypreMultiply (m : MatrixVTable) : MatrixVTable :=
  ⟨fun ft idx =>
    if (ft = CsMatrixFillType.scalar ∨ ft = CsMatrixFillType.scalar_sym)
        ∧ idx = false
    then some SpMVFn.mat_vec_p_parcsr
    else m.vector_multiply ft idx⟩

/-- Vtable update performed by `cs_matrix_set_type_hypre`: reset all SpMV
slots, then re-enable the supported fill types. -/
def cs_matrix_set_type_hypre (m : MatrixVTable) : MatrixVTable :=
  installHypreMultiply (resetVectorMultiply m)

/-- Modelled from the spec: the generic matrix-vector-multiply entry point
(`cs_matrix_vector_multiply` in cs_matrix.c, which is not under src/)
invokes the function registered for the matrix's fill type and fails
(fatal error, no silent result) when that slot is unset (NULL). -/
def vectorMultiplyInvoke (m : MatrixVTable) (ft : CsMatrixFillType) :
    Except String SpMVFn :=
  match m.vector_multiply ft false with
  | some f => Except.ok f
  | none => Except.error "no matrix-vector product function for this fill type"

/-- C5: after cs_matrix_set_type_hypre, every per-fill-type SpMV slot has
first been reset to NULL, and a non-null multiply function is installed
only in slot 0 of CS_MATRIX_SCALAR and CS_MATRIX_SCALAR_SYM; invoking
multiply for any other fill type fails instead of computing a result. -/
theorem set_type_hypre_vtable (m : MatrixVTable) (ft : CsMatrixFillType)
    (idx : Bool) :
    (resetVectorMultiply m).vector_multiply ft idx = none
  ∧ ((cs_matrix_set_type_hypre m).vector_multiply ft idx
      = if (ft = CsMatrixFillType.scalar ∨ ft = CsMatrixFillType.scalar_sym)
            ∧ idx = false
        then some SpMVFn.mat_vec_p_parcsr
        else none)
  ∧ ((cs_matrix_set_type_hypre m).vector_multiply ft idx ≠ none
      ↔ (ft = CsMatrixFillType.scalar ∨ ft = CsMatrixFillType.scalar_sym)
          ∧ idx = false)
  ∧ ((vectorMultiplyInvoke (cs_matrix_set_type_hypre m) ft).isOk
      = decide (ft = CsMatrixFillType.scalar
          ∨ ft = CsMatrixFillType.scalar_sym)) := by
  refine ⟨rfl, ?_, ?_, ?_⟩
  · by_cases hft : ft = CsMatrixFillType.scalar ∨ ft = CsMatrixFillType.scalar_sym
    · by_cases hidx : idx = false
      · simp [cs_matrix_set_type_hypre, installHypreMultiply,
          resetVectorMultiply, hft, hidx]
      · simp [cs_matrix_set_type_hypre, installHypreMultiply,
          resetVectorMultiply, hidx]
    · simp [cs_matrix_set_type_hypre, installHypreMultiply,
        resetVectorMultiply, hft]
  · by_cases hft : ft = CsMatrixFillType.scalar ∨ ft = CsMatrixFillType.scalar_sym
    · by_cases hidx : idx = false
      · simp [cs_matrix_set_type_hypre, installHypreMultiply,
          resetVectorMultiply, hft, hidx]
      · simp [cs_matrix_set_type_hypre, installHypreMultiply,
          resetVectorMultiply, hidx]
    · simp [cs_matrix_set_type_hypre, installHypreMultiply,
        resetVectorMultiply, hft]
  · by_cases hft : ft = CsMatrixFillType.scalar ∨ ft = CsMatrixFillType.scalar_sym
    · simp [vectorMultiplyInvoke, cs_matrix_set_type_hypre,
        installHypreMultiply, resetVectorMultiply, hft, Except.isOk, Except.toBool]
    · simp [vectorMultiplyInvoke, cs_matrix_set_type_hypre,
        installHypreMultiply, resetVectorMultiply, hft, Except.isOk, Except.toBool]

/-! ### AMGX solver adapter (cs_sles_amgx.c)

The AMGX library itself is external; its observable behaviour during one
solve (returned status and iteration count) enters the model as oracle
inputs.  Wall-clock timer differences enter as rational elapsed times. -/

/-- `cs_matrix_type_t` storage tags relevant to the AMGX adapter. -/
inductive CsMatrixType
  | native
  | csr
  | msr
  deriving Repr, DecidableEq

/-- `cs_matrix_type_name` entries used in the setup error message. -/
def csMatrixTypeName : CsMatrixType → String
  | CsMatrixType.native => "native"
  | CsMatrixType.csr => "CSR"
  | CsMatrixType.msr => "MSR"

/-- The data interpolated into the bft_error message of
`cs_sles_amgx_setup` for an unsupported matrix type / block size
combination ("Matrix type %s with block size %d for system \x22%s\x22 ...
is not usable by AMGX"). -/
structure AmgxSetupError where
  matTypeName : String
  dbSize : Nat
  sysName : String
  deriving Repr, DecidableEq

/-- Unsupported-configuration check of `cs_sles_amgx_setup`
(lines 840-849): fatal when `db_size > 1` or the storage type is neither
CSR nor MSR; the error names the offending system. -/
def amgxSetupCompatCheck (matType : CsMatrixType) (dbSize : Nat)
    (name : String) : Except AmgxSetupError Unit :=
  if 1 < dbSize ∨ (matType ≠ CsMatrixType.csr ∧ matType ≠ CsMatrixType.msr)
  then Except.error ⟨csMatrixTypeName matType, dbSize, name⟩
  else Except.ok ()

/-- `cs_sles_amgx_setup_t`: solve-phase resources (external solver and
matrix handles, modelled by abstract handle ids) plus the residue
normalization. -/
structure AmgxSetupData where
  solver : Nat
  matrix : Nat
  r_norm : ℚ
  deriving Repr, DecidableEq

/-- `_cs_sles_amgx_t`: per-system performance counters, timers and setup
data.  Iteration counters are C `int` (`n_iterations_tot` is
`long long`), modelled as `Int`; timers as rational seconds. -/
structure AmgxContext where
  n_setups : Nat
  n_solves : Nat
  n_iterations_last : Int
  n_iterations_min : Int
  n_iterations_max : Int
  n_iterations_tot : Int
  t_setup : ℚ
  t_solve : ℚ
  setup_data : Option AmgxSetupData
  deriving Repr, DecidableEq

/-- Per-context initialization of `cs_sles_amgx_create`: all counters and
timers zeroed, no setup data. -/
def amgxContextNew : AmgxContext :=
  ⟨0, 0, 0, 0, 0, 0, 0, 0, none⟩

/-- `cs_sles_amgx_setup`: allocate setup data if absent, validate the
matrix storage type and block size (fatal on an unsupported combination),
upload the matrix and create the external solver (fresh handles), set
`r_norm = -1`, increment `n_setups` and add the elapsed time `dt` to the
setup timer. -/
def cs_sles_amgx_setup (c : AmgxContext) (name : String)
    (matType : CsMatrixType) (dbSize : Nat) (dt : ℚ) :
    Except AmgxSetupError AmgxContext :=
  match amgxSetupCompatCheck matType dbSize name with
  | Except.error e => Except.error e
  | Except.ok _ =>
      Except.ok { c with
        setup_data := some ⟨c.n_setups, c.n_setups, -1⟩,
        n_setups := c.n_setups + 1,
        t_setup := c.t_setup + dt }

/-- `AMGX_SOLVE_STATUS` as queried by `AMGX_solver_get_status`. -/
inductive AmgxSolveStatus
  | success
  | failed
  | diverged
  deriving Repr, DecidableEq

/-- `cs_sles_convergence_state_t` values used by the adapter. -/
inductive CsSlesConvergenceState
  | converged
  | diverged
  | max_iteration
  | iterating
  deriving Repr, DecidableEq

/-- Status-mapping switch of `cs_sles_amgx_solve` (lines 1157-1169):
AMGX_SOLVE_SUCCESS maps to CS_SLES_CONVERGED, AMGX_SOLVE_FAILED to
CS_SLES_DIVERGED, and AMGX_SOLVE_DIVERGED to CS_SLES_MAX_ITERATION when
`its >= c->n_iterations_max` (the context's maximum-iterations counter)
and to CS_SLES_DIVERGED otherwise. -/
def amgxCvgOfStatus (st : AmgxSolveStatus) (its : Int)
    (nIterationsMax : Int) : CsSlesConvergenceState :=
  match st with
  | AmgxSolveStatus.success => CsSlesConvergenceState.converged
  | AmgxSolveStatus.failed => CsSlesConvergenceState.diverged
  | AmgxSolveStatus.diverged =>
      if nIterationsMax ≤ its then CsSlesConvergenceState.max_iteration
      else CsSlesConvergenceState.diverged

/-- Fatal error paths of `cs_sles_amgx_solve`. -/
inductive AmgxFatalError
  | setupError (e : AmgxSetupError)
  | rotationError (dbSize : Nat) (sysName : String)
  deriving Repr, DecidableEq

/-- Result of a non-fatal `cs_sles_amgx_solve` call: updated context,
convergence state, reported iteration count and the setup data the solve
operated on. -/
structure AmgxSolveResult where
  ctx : AmgxContext
  cvg : CsSlesConvergenceState
  n_iter : Int
  used_setup : Option AmgxSetupData
  deriving Repr, DecidableEq

/-- `cs_sles_amgx_solve`: when `setup_data` is NULL, first perform the full
setup for the given matrix and system name; reject rotation modes other
than CS_HALO_ROTATION_COPY for block matrices; upload the vectors, run the
external solve (whose status and iteration count are the oracle inputs
`status` and `its`), map the status, then update the iteration statistics,
`n_solves` and the solve timer by the elapsed time `solveDt`. -/
def cs_sles_amgx_solve (c : AmgxContext) (name : String)
    (matType : CsMatrixType) (dbSize : Nat) (rotationCopy : Bool)
    (status : AmgxSolveStatus) (its : Int) (setupDt solveDt : ℚ) :
    Except AmgxFatalError AmgxSolveResult :=
  match (if c.setup_data = none
         then match cs_sles_amgx_setup c name matType dbSize setupDt with
              | Except.error e => Except.error (AmgxFatalError.setupError e)
              | Except.ok c' => Except.ok c'
         else Except.ok c) with
  | Except.error e => Except.error e
  | Except.ok c1 =>
    if rotationCopy = false ∧ 1 < dbSize then
      Except.error (AmgxFatalError.rotationError dbSize name)
    else
      let cvg := amgxCvgOfStatus status its c1.n_iterations_max
      let min0 := if c1.n_solves = 0 then its else c1.n_iterations_min
      Except.ok
        { ctx := { c1 with
            n_iterations_last := its,
            n_iterations_tot := c1.n_iterations_tot + its,
            n_iterations_min := if its < min0 then its else min0,
            n_iterations_max :=
              if c1.n_iterations_max < its then its else c1.n_iterations_max,
            n_solves := c1.n_solves + 1,
            t_solve := c1.t_solve + solveDt },
          cvg := cvg,
          n_iter := its,
          used_setup := c1.setup_data }

/-- Global AMGX library state: the `_n_amgx_systems` counter (C `int`,
modelled as `Int`) and whether the one-time library initialization
(`_amgx_initialize`) is currently in effect. -/
structure AmgxGlobal where
  n_amgx_systems : Int
  libInitDone : Bool
  deriving Repr, DecidableEq

/-- Global effect of `cs_sles_amgx_create`: when `_n_amgx_systems < 1` the
one-time library initialization runs; the counter is then incremented.
The returned flag records whether initialization ran. -/
def amgxCreateStep (g : AmgxGlobal) : AmgxGlobal × Bool :=
  let doInit := g.n_amgx_systems < 1
  ({ n_amgx_systems := g.n_amgx_systems + 1,
     libInitDone := if doInit then true else g.libInitDone },
   doInit)

/-- Global effect of `cs_sles_amgx_destroy`: a NULL context is a no-op;
otherwise the counter is decremented and, when it reaches 0, the library
finalization (`_amgx_finalize`) runs.  The returned flag records whether
finalization ran. -/
def amgxDestroyStep (g : AmgxGlobal) (isNull : Bool) : AmgxGlobal × Bool :=
  if isNull then (g, false)
  else
    let n := g.n_amgx_systems - 1
    let doFin := n = 0
    ({ n_amgx_systems := n,
       libInitDone := if doFin then false else g.libInitDone },
     doFin)

/-- A create/destroy event on the global AMGX state. -/
inductive AmgxEvent
  | create
  | destroy (isNull : Bool)
  deriving Repr, DecidableEq

/-- Run a sequence of create/destroy events on the global state. -/
def runAmgxEvents (g : AmgxGlobal) : List AmgxEvent → AmgxGlobal
  | [] => g
  | AmgxEvent.create :: evs => runAmgxEvents (amgxCreateStep g).1 evs
  | AmgxEvent.destroy b :: evs => runAmgxEvents (amgxDestroyStep g b).1 evs

/-- Number of create events. -/
def createCount : List AmgxEvent → Int
  | [] => 0
  | AmgxEvent.create :: evs => createCount evs + 1
  | AmgxEvent.destroy _ :: evs => createCount evs

/-- Number of destroy events with a non-null context. -/
def destroyCount : List AmgxEvent → Int
  | [] => 0
  | AmgxEvent.create :: evs => destroyCount evs
  | AmgxEvent.destroy true :: evs => destroyCount evs
  | AmgxEvent.destroy false :: evs => destroyCount evs + 1

/-- The event sequence never destroys more systems than were created:
starting from `n` live systems, every non-null destroy finds at least one
live system. -/
def balancedFrom (n : Int) : List AmgxEvent → Prop
  | [] => True
  | AmgxEvent.create :: evs => balancedFrom (n + 1) evs
  | AmgxEvent.destroy true :: evs => balancedFrom n evs
  | AmgxEvent.destroy false :: evs => 1 ≤ n ∧ balancedFrom (n - 1) evs

instance (n : Int) (evs : List AmgxEvent) : Decidable (balancedFrom n evs) := by
  induction evs generalizing n with
  | nil =>
    unfold balancedFrom
    infer_instance
  | cons e evs ih =>
    match e with
    | AmgxEvent.create =>
      unfold balancedFrom
      exact ih _
    | AmgxEvent.destroy true =>
      unfold balancedFrom
      exact ih _
    | AmgxEvent.destroy false =>
      unfold balancedFrom
      exact @instDecidableAnd _ _ _ (ih _)

/-- `cs_sles_amgx_free` teardown actions, in order. -/
inductive AmgxTeardownStep
  | solverDestroy (h : Nat)
  | matrixDestroy (h : Nat)
  | setupDataFree
  deriving Repr, DecidableEq

/-- `cs_sles_amgx_free`: when setup data is present, destroy the external
solver handle then the external matrix handle, then free the setup-data
record; in all cases add the elapsed time to the setup timer.  Returns
the updated context and the teardown actions performed. -/
def cs_sles_amgx_free (c : AmgxContext) (dt : ℚ) :
    AmgxContext × List AmgxTeardownStep :=
  let steps :=
    (match c.setup_data with
     | some sd => [AmgxTeardownStep.solverDestroy sd.solver,
                   AmgxTeardownStep.matrixDestroy sd.matrix]
     | none => [])
    ++ (match c.setup_data with
        | some _ => [AmgxTeardownStep.setupDataFree]
        | none => [])
  ({ c with setup_data := none, t_setup := c.t_setup + dt }, steps)

/-- C6: calling the AMGX setup with a diagonal block size greater than 1,
or a storage type that is neither CSR nor MSR, raises a fatal
configuration error carrying the offending system's name; there is no
fallback path. -/
theorem amgx_setup_unsupported_fatal
    (matType : CsMatrixType) (dbSize : Nat) (name : String)
    (c : AmgxContext) (dt : ℚ)
    (h : 1 < dbSize ∨ (matType ≠ CsMatrixType.csr ∧ matType ≠ CsMatrixType.msr)) :
    amgxSetupCompatCheck matType dbSize name
      = Except.error ⟨csMatrixTypeName matType, dbSize, name⟩
  ∧ cs_sles_amgx_setup c name matType dbSize dt
      = Except.error ⟨csMatrixTypeName matType, dbSize, name⟩
  ∧ (⟨csMatrixTypeName matType, dbSize, name⟩ : AmgxSetupError).sysName
      = name := by
  have hc : amgxSetupCompatCheck matType dbSize name
      = Except.error ⟨csMatrixTypeName matType, dbSize, name⟩ := by
    simp [amgxSetupCompatCheck, h]
  refine ⟨hc, ?_, rfl⟩
  unfold cs_sles_amgx_setup
  rw [hc]

/-- Witness for C6: an MSR matrix with block size 3 for system "velocity"
is rejected with an error naming "velocity". -/
theorem amgx_setup_unsupported_fatal_witness :
    ((1 : Nat) < 3 ∨ (CsMatrixType.msr ≠ CsMatrixType.csr
        ∧ CsMatrixType.msr ≠ CsMatrixType.msr))
  ∧ (amgxSetupCompatCheck CsMatrixType.msr 3 "velocity"
      = Except.error ⟨csMatrixTypeName CsMatrixType.msr, 3, "velocity"⟩
    ∧ cs_sles_amgx_setup amgxContextNew "velocity" CsMatrixType.msr 3 0
      = Except.error ⟨csMatrixTypeName CsMatrixType.msr, 3, "velocity"⟩
    ∧ (⟨csMatrixTypeName CsMatrixType.msr, 3, "velocity"⟩ : AmgxSetupError).sysName
      = "velocity") :=
  ⟨Or.inl (by decide),
   amgx_setup_unsupported_fatal CsMatrixType.msr 3 "velocity" amgxContextNew 0
     (Or.inl (by decide))⟩

/-- C7: the AMGX solve maps the library status into the shared convergence
enumeration (SUCCESS to CONVERGED, FAILED to DIVERGED, DIVERGED to
MAX_ITERATION when the returned iteration count has reached the context's
maximum-iterations counter and to DIVERGED otherwise), and returns that
state to the caller as a normal (non-fatal) result. -/
theorem amgx_solve_status_mapping
    (c : AmgxContext) (name : String) (matType : CsMatrixType) (dbSize : Nat)
    (status : AmgxSolveStatus) (its : Int) (solveDt : ℚ)
    (sd : AmgxSetupData) (hsd : c.setup_data = some sd) :
    (amgxCvgOfStatus AmgxSolveStatus.success its c.n_iterations_max
       = CsSlesConvergenceState.converged)
  ∧ (amgxCvgOfStatus AmgxSolveStatus.failed its c.n_iterations_max
       = CsSlesConvergenceState.diverged)
  ∧ (c.n_iterations_max ≤ its →
      amgxCvgOfStatus AmgxSolveStatus.diverged its c.n_iterations_max
        = CsSlesConvergenceState.max_iteration)
  ∧ (its < c.n_iterations_max →
      amgxCvgOfStatus AmgxSolveStatus.diverged its c.n_iterations_max
        = CsSlesConvergenceState.diverged)
  ∧ ∃ res : AmgxSolveResult,
      cs_sles_amgx_solve c name matType dbSize true status its 0 solveDt
        = Except.ok res
      ∧ res.cvg = amgxCvgOfStatus status its c.n_iterations_max
      ∧ res.n_iter = its := by
  refine ⟨rfl, rfl, ?_, ?_, ?_⟩
  · intro h
    simp [amgxCvgOfStatus, h]
  · intro h
    simp [amgxCvgOfStatus, not_le.mpr h]
  · refine ⟨⟨{ c with
        n_iterations_last := its,
        n_iterations_tot := c.n_iterations_tot + its,
        n_iterations_min :=
          if its < (if c.n_solves = 0 then its else c.n_iterations_min)
          then its else (if c.n_solves = 0 then its else c.n_iterations_min),
        n_iterations_max :=
          if c.n_iterations_max < its then its else c.n_iterations_max,
        n_solves := c.n_solves + 1,
        t_solve := c.t_solve + solveDt },
      amgxCvgOfStatus status its c.n_iterations_max, its, c.setup_data⟩,
      ?_, rfl, rfl⟩
    simp [cs_sles_amgx_solve, hsd]

/-- Witness for C7: a context with setup data present and
n_iterations_max = 0; a DIVERGED status with its = 5 maps to
MAX_ITERATION and the solve returns a non-fatal result. -/
theorem amgx_solve_status_mapping_witness :
    ({ amgxContextNew with
        setup_data := some ⟨0, 0, -1⟩ } : AmgxContext).setup_data
      = some ⟨0, 0, -1⟩
  ∧ (∃ res : AmgxSolveResult,
      cs_sles_amgx_solve { amgxContextNew with setup_data := some ⟨0, 0, -1⟩ }
          "p" CsMatrixType.csr 1 true AmgxSolveStatus.diverged 5 0 0
        = Except.ok res
      ∧ res.cvg = amgxCvgOfStatus AmgxSolveStatus.diverged 5
          ({ amgxContextNew with
              setup_data := some ⟨0, 0, -1⟩ } : AmgxContext).n_iterations_max
      ∧ res.n_iter = 5) :=
  ⟨rfl,
   (amgx_solve_status_mapping
     { amgxContextNew with setup_data := some ⟨0, 0, -1⟩ }
     "p" CsMatrixType.csr 1 AmgxSolveStatus.diverged 5 0 ⟨0, 0, -1⟩
     rfl).2.2.2.2⟩

/-- Fold invariant for the global AMGX lifecycle: starting from a
non-negative counter whose initialized flag matches positivity, a
balanced event sequence preserves that relation and shifts the counter by
creates minus non-null destroys. -/
theorem runAmgxEvents_invariant (evs : List AmgxEvent) (g : AmgxGlobal)
    (hbal : balancedFrom g.n_amgx_systems evs)
    (hnn : 0 ≤ g.n_amgx_systems)
    (hinv : g.libInitDone = true ↔ 0 < g.n_amgx_systems) :
    (runAmgxEvents g evs).n_amgx_systems
        = g.n_amgx_systems + createCount evs - destroyCount evs
  ∧ ((runAmgxEvents g evs).libInitDone = true
        ↔ 0 < (runAmgxEvents g evs).n_amgx_systems) := by
  induction evs generalizing g with
  | nil =>
    refine ⟨?_, hinv⟩
    simp [runAmgxEvents, createCount, destroyCount]
  | cons e evs ih =>
    match e with
    | AmgxEvent.create =>
      have hbal' : balancedFrom (g.n_amgx_systems + 1) evs := hbal
      have hstep : (amgxCreateStep g).1.n_amgx_systems
          = g.n_amgx_systems + 1 := rfl
      have hlib : (amgxCreateStep g).1.libInitDone = true
          ↔ 0 < (amgxCreateStep g).1.n_amgx_systems := by
        simp only [amgxCreateStep]
        by_cases h0 : g.n_amgx_systems < 1
        · simp [h0]
          omega
        · simp only [h0, if_false]
          constructor
          · intro _
            omega
          · intro _
            exact hinv.mpr (by omega)
      have hrec := ih (amgxCreateStep g).1 (by simpa [hstep] using hbal')
        (by omega) hlib
      refine ⟨?_, hrec.2⟩
      rw [show runAmgxEvents g (AmgxEvent.create :: evs)
          = runAmgxEvents (amgxCreateStep g).1 evs from rfl, hrec.1, hstep]
      simp only [createCount, destroyCount]
      omega
    | AmgxEvent.destroy true =>
      have hbal' : balancedFrom g.n_amgx_systems evs := hbal
      have hstep : (amgxDestroyStep g true).1 = g := rfl
      have hrec := ih (amgxDestroyStep g true).1 (by simpa [hstep] using hbal')
        (by rw [hstep]; exact hnn) (by rw [hstep]; exact hinv)
      refine ⟨?_, hrec.2⟩
      rw [show runAmgxEvents g (AmgxEvent.destroy true :: evs)
          = runAmgxEvents (amgxDestroyStep g true).1 evs from rfl, hrec.1, hstep]
      simp only [createCount, destroyCount]
    | AmgxEvent.destroy false =>
      have hbal0 : 1 ≤ g.n_amgx_systems ∧
          balancedFrom (g.n_amgx_systems - 1) evs := hbal
      have hstep : (amgxDestroyStep g false).1.n_amgx_systems
          = g.n_amgx_systems - 1 := rfl
      have hlib : (amgxDestroyStep g false).1.libInitDone = true
          ↔ 0 < (amgxDestroyStep g false).1.n_amgx_systems := by
        simp only [amgxDestroyStep, if_false, Bool.false_eq_true]
        by_cases h0 : g.n_amgx_systems - 1 = 0
        · simp [h0]
        · simp only [h0, if_false]
          constructor
          · intro _
            omega
          · intro _
            exact hinv.mpr (by omega)
      have hrec := ih (amgxDestroyStep g false).1
        (by simpa [hstep] using hbal0.2) (by have := hbal0.1; omega) hlib
      refine ⟨?_, hrec.2⟩
      rw [show runAmgxEvents g (AmgxEvent.destroy false :: evs)
          = runAmgxEvents (amgxDestroyStep g false).1 evs from rfl, hrec.1, hstep]
      simp only [createCount, destroyCount]
      omega

/-- C8: the global system counter is incremented by every create and
decremented by every destroy of a non-null context; one-time library
initialization runs exactly when the counter rises from 0 to 1 and
finalization exactly when it returns to 0; and for every balanced
create/destroy sequence from the initial state, the library is
initialized if and only if the counter is positive. -/
theorem amgx_refcount_lifecycle (g : AmgxGlobal) (evs : List AmgxEvent)
    (hbal : balancedFrom 0 evs) :
    ((amgxCreateStep g).1.n_amgx_systems = g.n_amgx_systems + 1)
  ∧ ((amgxDestroyStep g false).1.n_amgx_systems = g.n_amgx_systems - 1)
  ∧ ((amgxDestroyStep g true).1 = g)
  ∧ (0 ≤ g.n_amgx_systems →
      ((amgxCreateStep g).2 = true ↔ g.n_amgx_systems = 0))
  ∧ ((amgxDestroyStep g false).2 = true ↔ g.n_amgx_systems - 1 = 0)
  ∧ ((runAmgxEvents ⟨0, false⟩ evs).n_amgx_systems
      = createCount evs - destroyCount evs)
  ∧ ((runAmgxEvents ⟨0, false⟩ evs).libInitDone = true
      ↔ 0 < (runAmgxEvents ⟨0, false⟩ evs).n_amgx_systems) := by
  have hrun := runAmgxEvents_invariant evs ⟨0, false⟩ hbal (by simp)
    (by simp)
  refine ⟨rfl, rfl, rfl, ?_, ?_, ?_, hrun.2⟩
  · intro hnn
    simp only [amgxCreateStep]
    constructor
    · intro h
      have := of_decide_eq_true h
      omega
    · intro h
      exact decide_eq_true (by omega)
  · simp only [amgxDestroyStep, if_false, Bool.false_eq_true]
    constructor
    · intro h
      exact of_decide_eq_true h
    · intro h
      exact decide_eq_true h
  · simpa using hrun.1

/-- Witness for C8: the balanced sequence create, create, destroy,
destroy; the counter ends at 0 and the library is finalized. -/
theorem amgx_refcount_lifecycle_witness :
    balancedFrom 0 [AmgxEvent.create, AmgxEvent.create,
      AmgxEvent.destroy false, AmgxEvent.destroy false]
  ∧ ((runAmgxEvents ⟨0, false⟩ [AmgxEvent.create, AmgxEvent.create,
        AmgxEvent.destroy false, AmgxEvent.destroy false]).n_amgx_systems
      = createCount [AmgxEvent.create, AmgxEvent.create,
        AmgxEvent.destroy false, AmgxEvent.destroy false]
        - destroyCount [AmgxEvent.create, AmgxEvent.create,
            AmgxEvent.destroy false, AmgxEvent.destroy false]
    ∧ ((runAmgxEvents ⟨0, false⟩ [AmgxEvent.create, AmgxEvent.create,
          AmgxEvent.destroy false, AmgxEvent.destroy false]).libInitDone = true
        ↔ 0 < (runAmgxEvents ⟨0, false⟩ [AmgxEvent.create, AmgxEvent.create,
            AmgxEvent.destroy false, AmgxEvent.destroy false]).n_amgx_systems)) :=
  ⟨by decide,
   ⟨(amgx_refcount_lifecycle ⟨0, false⟩ [AmgxEvent.create, AmgxEvent.create,
       AmgxEvent.destroy false, AmgxEvent.destroy false] (by decide)).2.2.2.2.2.1,
    (amgx_refcount_lifecycle ⟨0, false⟩ [AmgxEvent.create, AmgxEvent.create,
       AmgxEvent.destroy false, AmgxEvent.destroy false] (by decide)).2.2.2.2.2.2⟩⟩

/-- C9: cs_sles_amgx_free releases only the solve-phase resources — the
external solver handle, then the external matrix handle, then the
setup-data record — and leaves the performance counters (setup and solve
counts, iteration last/min/max/total) and the solve timer unchanged, while
adding the elapsed time to the setup timer. -/
theorem amgx_free_frame (c : AmgxContext) (dt : ℚ) :
    (cs_sles_amgx_free c dt).1.n_setups = c.n_setups
  ∧ (cs_sles_amgx_free c dt).1.n_solves = c.n_solves
  ∧ (cs_sles_amgx_free c dt).1.n_iterations_last = c.n_iterations_last
  ∧ (cs_sles_amgx_free c dt).1.n_iterations_min = c.n_iterations_min
  ∧ (cs_sles_amgx_free c dt).1.n_iterations_max = c.n_iterations_max
  ∧ (cs_sles_amgx_free c dt).1.n_iterations_tot = c.n_iterations_tot
  ∧ (cs_sles_amgx_free c dt).1.t_solve = c.t_solve
  ∧ (cs_sles_amgx_free c dt).1.t_setup = c.t_setup + dt
  ∧ (cs_sles_amgx_free c dt).1.setup_data = none
  ∧ (cs_sles_amgx_free c dt).2
      = (match c.setup_data with
         | some sd => [AmgxTeardownStep.solverDestroy sd.solver,
                       AmgxTeardownStep.matrixDestroy sd.matrix,
                       AmgxTeardownStep.setupDataFree]
         | none => []) := by
  refine ⟨rfl, rfl, rfl, rfl, rfl, rfl, rfl, rfl, rfl, ?_⟩
  rcases hsd : c.setup_data with _ | sd <;>
    simp [cs_sles_amgx_free, hsd]

/-- Shape of a successful AMGX setup: the returned context is the input
with fresh setup data, an incremented setup count and an updated setup
timer. -/
theorem amgx_setup_ok_shape (c : AmgxContext) (name : String)
    (matType : CsMatrixType) (dbSize : Nat) (dt : ℚ) (c' : AmgxContext)
    (h : cs_sles_amgx_setup c name matType dbSize dt = Except.ok c') :
    c' = { c with
      setup_data := some ⟨c.n_setups, c.n_setups, -1⟩,
      n_setups := c.n_setups + 1,
      t_setup := c.t_setup + dt } := by
  unfold cs_sles_amgx_setup at h
  rcases hchk : amgxSetupCompatCheck matType dbSize name with e | u
  · rw [hchk] at h
    exact absurd h (by simp)
  · rw [hchk] at h
    exact (Except.ok.inj h).symm

/-- C10: when the setup data is absent, the AMGX solve first performs the
full setup for the given matrix and system name and then proceeds exactly
as a solve on the set-up context; any non-fatal result of a solve from
that state operates on a present setup record. -/
theorem amgx_solve_lazy_setup
    (c : AmgxContext) (name : String) (matType : CsMatrixType) (dbSize : Nat)
    (rotationCopy : Bool) (status : AmgxSolveStatus) (its : Int)
    (setupDt solveDt : ℚ)
    (hnone : c.setup_data = none) :
    (cs_sles_amgx_solve c name matType dbSize rotationCopy status its
        setupDt solveDt
      = (match cs_sles_amgx_setup c name matType dbSize setupDt with
         | Except.error e => Except.error (AmgxFatalError.setupError e)
         | Except.ok c' =>
             cs_sles_amgx_solve c' name matType dbSize rotationCopy status its
               setupDt solveDt))
  ∧ (∀ c', cs_sles_amgx_setup c name matType dbSize setupDt = Except.ok c' →
        c'.setup_data ≠ none ∧ c'.n_setups = c.n_setups + 1)
  ∧ (∀ res, cs_sles_amgx_solve c name matType dbSize rotationCopy status its
        setupDt solveDt = Except.ok res → res.used_setup ≠ none) := by
  refine ⟨?_, ?_, ?_⟩
  · rcases hst : cs_sles_amgx_setup c name matType dbSize setupDt with e | c'
    · simp [cs_sles_amgx_solve, hnone, hst]
    · have hc' := amgx_setup_ok_shape c name matType dbSize setupDt c' hst
      subst hc'
      conv_lhs => rw [cs_sles_amgx_solve]
      rw [hnone]
      simp only [hst, if_true, eq_self_iff_true, if_pos rfl]
      conv_rhs => rw [cs_sles_amgx_solve]
      simp
  · intro c' h
    have hc' := amgx_setup_ok_shape c name matType dbSize setupDt c' h
    rw [hc']
    exact ⟨by simp, rfl⟩
  · intro res hres
    rcases hst : cs_sles_amgx_setup c name matType dbSize setupDt with e | c'
    · rw [cs_sles_amgx_solve, hnone] at hres
      simp [hst] at hres
    · have hc' := amgx_setup_ok_shape c name matType dbSize setupDt c' hst
      subst hc'
      rw [cs_sles_amgx_solve, hnone] at hres
      simp only [hst, if_true, eq_self_iff_true, if_pos rfl] at hres
      by_cases hrot : rotationCopy = false ∧ 1 < dbSize
      · simp [hrot] at hres
      · simp only [hrot, if_false, if_neg hrot] at hres
        have hres2 := Except.ok.inj hres
        rw [← hres2]
        simp

/-- Witness for C10: a fresh context (no setup data); a solve call equals
setup followed by solve. -/
theorem amgx_solve_lazy_setup_witness :
    amgxContextNew.setup_data = none
  ∧ (cs_sles_amgx_solve amgxContextNew "p" CsMatrixType.csr 1 true
        AmgxSolveStatus.success 5 0 0
      = (match cs_sles_amgx_setup amgxContextNew "p" CsMatrixType.csr 1 0 with
         | Except.error e => Except.error (AmgxFatalError.setupError e)
         | Except.ok c' =>
             cs_sles_amgx_solve c' "p" CsMatrixType.csr 1 true
               AmgxSolveStatus.success 5 0 0)) :=
  ⟨rfl,
   (amgx_solve_lazy_setup amgxContextNew "p" CsMatrixType.csr 1 true
      AmgxSolveStatus.success 5 0 0 rfl).1⟩

end CodeSaturne
